import Mathlib

/-!
Shallow embedding of the cross-module call-graph extraction core of
`src/extension.ts` (module-callgraph-extension).  The embedding covers the
two-pass pipeline in `activate` (definition scanning, symbol table, comment
stripping, call scanning, call attribution, edge aggregation, graph
assembly) and the file walker `walkFiles`.  Texts are modelled as
`List Char`; the JavaScript `Map` is modelled as an association list with
JS insertion-order semantics (update in place, append when absent);
`fs.readdirSync` failure is modelled with `Except`.
-/

namespace MCG

/-! Character classes of the JS regexes (ASCII fragment, which is what the
scanned C/C++ sources consist of).  `\w` is `[A-Za-z0-9_]`. -/

def isWordChar (c : Char) : Bool :=
  c.isAlpha || c.isDigit || c = '_'

def isIdentStart (c : Char) : Bool :=
  c.isAlpha || c = '_'

/-- JS `\s` restricted to the ASCII whitespace characters. -/
def isJsSpace (c : Char) : Bool :=
  c = ' ' || c = '\t' || c = '\n' || c = '\r' || c = '\x0b' || c = '\x0c'

/-! JS `Map` modelled as an association list: `set` updates the first (and,
by the no-duplicate-keys invariant, only) binding in place keeping its
position, and appends a fresh binding at the end, exactly like the JS `Map`
insertion-order semantics used by `defs` and `edgesMap` in the source. -/

def mapSet {α β : Type} [DecidableEq α] (m : List (α × β)) (k : α) (v : β) :
    List (α × β) :=
  match m with
  | [] => [(k, v)]
  | (k', v') :: rest =>
    if k' = k then (k, v) :: rest else (k', v') :: mapSet rest k v

def mapGet {α β : Type} [DecidableEq α] (m : List (α × β)) (k : α) : Option β :=
  match m with
  | [] => none
  | (k', v) :: rest => if k' = k then some v else mapGet rest k

def mapValues {α β : Type} (m : List (α × β)) : List β :=
  m.map (fun p => p.2)

/-- JS `new Set(array)` keeps the first occurrence of each element, in
order; `Array.from` then lists them. -/
def dedupFirst {α : Type} [DecidableEq α] (l : List α) : List α :=
  l.foldl (fun acc x => if x ∈ acc then acc else acc ++ [x]) []

/-! Embedding of the two regexes of `activate`:

`funcRegex = (?:void|int|float|double|char|bool|static)\s+([a-zA-Z_][a-zA-Z0-9_]*)\s*\([^)]*\)\s*(?:\x7b)?`

`callRegex = \b([a-zA-Z_][a-zA-Z0-9_]*)\s*\(`

Both are deterministic at a given start position: every greedy repetition
is followed by a character it can never match, and the keyword
alternatives start with pairwise distinct letters, so the backtracking
engine's leftmost match is the max-munch match computed below. -/

/-- Greedy `([a-zA-Z_][a-zA-Z0-9_]*)` at position `i`: the captured
identifier and the position one past it. -/
def identAt (s : List Char) (i : Nat) : Option (String × Nat) :=
  match s.drop i with
  | [] => none
  | c :: rest =>
    if isIdentStart c then
      some (String.mk (c :: rest.takeWhile isWordChar),
            i + 1 + (rest.takeWhile isWordChar).length)
    else none

/-- Length of the greedy `\s*` run at position `i`. -/
def spacesAt (s : List Char) (i : Nat) : Nat :=
  ((s.drop i).takeWhile isJsSpace).length

def keywords : List String :=
  ["void", "int", "float", "double", "char", "bool", "static"]

/-- The keyword alternation at position `i`: length of the alternative that
matches there, if any (the alternatives have pairwise distinct first
letters, so at most one matches). -/
def keywordAt (s : List Char) (i : Nat) : Option Nat :=
  keywords.findSome? (fun kw =>
    if (s.drop i).take kw.data.length = kw.data then some kw.data.length
    else none)

/-- One attempt of `funcRegex` anchored at position `i`: the captured name
and the end position of the whole match (`lastIndex` after the match). -/
def matchDefAt (s : List Char) (i : Nat) : Option (String × Nat) :=
  match keywordAt s i with
  | none => none
  | some klen =>
    let ws := spacesAt s (i + klen)
    if ws = 0 then none
    else
      match identAt s (i + klen + ws) with
      | none => none
      | some (name, k) =>
        let k2 := k + spacesAt s k
        if s.get? k2 = some '(' then
          let inner := ((s.drop (k2 + 1)).takeWhile (fun c => c ≠ ')')).length
          let k3 := k2 + 1 + inner
          if s.get? k3 = some ')' then
            let k4 := k3 + 1 + spacesAt s (k3 + 1)
            some (name, if s.get? k4 = some '\x7b' then k4 + 1 else k4)
          else none
        else none

/-- JS `\b` immediately before an identifier character at position `i`. -/
def wordBoundary (s : List Char) (i : Nat) : Bool :=
  match i with
  | 0 => true
  | j + 1 =>
    match s.get? j with
    | some c => !isWordChar c
    | none => true

/-- One attempt of `callRegex` anchored at position `i`. -/
def matchCallAt (s : List Char) (i : Nat) : Option (String × Nat) :=
  if wordBoundary s i then
    match identAt s i with
    | none => none
    | some (name, k) =>
      let k2 := k + spacesAt s k
      if s.get? k2 = some '(' then some (name, k2 + 1) else none
  else none

/-- The `while ((match = regex.exec(text)) !== null)` loop: scan forward
from `lastIndex`, emit `(match.index, capture)` for each match, resume at
the end of the match.  Fuel-structural so that it evaluates; the fuel
`s.length + 1` is enough because the position strictly increases. -/
def scanAux (f : List Char → Nat → Option (String × Nat)) (s : List Char) :
    Nat → Nat → List (Nat × String)
  | 0, _ => []
  | fuel + 1, i =>
    match f s i with
    | some (name, e) => (i, name) :: scanAux f s fuel (max e (i + 1))
    | none => if i < s.length then scanAux f s fuel (i + 1) else []

/-- All `funcRegex` matches of a file text: `(match.index, name)` pairs. -/
def scanDefs (s : List Char) : List (Nat × String) :=
  scanAux matchDefAt s (s.length + 1) 0

/-- All `callRegex` matches of a (comment-stripped) text. -/
def scanCalls (s : List Char) : List (Nat × String) :=
  scanAux matchCallAt s (s.length + 1) 0

/-! Embedding of `text.replace(/\/\*[\s\S]*?\*\/|\/\/.*/g, '')`. -/

/-- Given the text after an opening `/*`, drop through the first `*/`;
`none` when the block comment is unterminated (in which case the JS
alternative fails and the opener is left in place). -/
def stripAfterBlock (l : List Char) : Option (List Char) :=
  match l with
  | [] => none
  | c :: rest =>
    if c = '*' ∧ rest.head? = some '/' then some rest.tail
    else stripAfterBlock rest

/-- Drop the remainder of the line (`.*` does not consume the line
terminator, which is kept). -/
def dropLine (l : List Char) : List Char :=
  match l with
  | [] => []
  | c :: rest => if c = '\n' ∨ c = '\r' then c :: rest else dropLine rest

theorem stripAfterBlock_length {l r : List Char}
    (h : stripAfterBlock l = some r) : r.length < l.length := by
  induction l with
  | nil => simp [stripAfterBlock] at h
  | cons c rest ih =>
    rw [stripAfterBlock] at h
    split at h
    · rename_i hc
      cases h
      have : rest ≠ [] := by
        intro he; rw [he] at hc; simp at hc
      calc rest.tail.length < rest.length := by
              cases rest with
              | nil => exact absurd rfl this
              | cons a t => simp
           _ < (c :: rest).length := by simp
    · exact Nat.lt_trans (ih h) (by simp)

theorem dropLine_length (l : List Char) : (dropLine l).length ≤ l.length := by
  induction l with
  | nil => simp [dropLine]
  | cons c rest ih =>
    rw [dropLine]
    split
    · exact Nat.le_refl _
    · exact Nat.le_trans ih (by simp)

/-- The global comment-stripping replace: at each position try the block
alternative, then the line alternative, else keep the character.
Fuel-structural so that it evaluates; every step strictly shortens the
text (`stripAfterBlock_length`, `dropLine_length`), so fuel `l.length` is
enough, and the out-of-fuel branch (which then only fires on `[]`) agrees
with the empty case. -/
def stripCommentsAux (fuel : Nat) (l : List Char) : List Char :=
  match fuel with
  | 0 => l
  | fuel + 1 =>
    match l with
    | [] => []
    | c :: rest =>
      if c = '/' ∧ rest.head? = some '*' then
        match stripAfterBlock rest.tail with
        | some r => stripCommentsAux fuel r
        | none => c :: stripCommentsAux fuel rest
      else if c = '/' ∧ rest.head? = some '/' then
        stripCommentsAux fuel (dropLine rest.tail)
      else c :: stripCommentsAux fuel rest

def stripComments (l : List Char) : List Char :=
  stripCommentsAux l.length l

/-! The data model of the pipeline. -/

structure FunctionDef where
  name : String
  module : String
  start : Nat
deriving DecidableEq, Repr

structure Edge where
  fromModule : String
  toModule : String
  functions : List String
deriving DecidableEq, Repr

structure Graph where
  modules : List String
  edges : List Edge
deriving DecidableEq, Repr

/-- One input file, already reduced to what the core reads: its module
name (`path.basename(file, path.extname(file))`) and its text. -/
abbrev SrcFile := String × List Char

/-- The `funcs` array built for one file: each `funcRegex` match as a
`FunctionDef` with `start = match.index`. -/
def fileDefs (moduleName : String) (text : List Char) : List FunctionDef :=
  (scanDefs text).map (fun p => ⟨p.2, moduleName, p.1⟩)

/-- Phase 1: fold every file's definitions into the `defs` map, later
insertions overwriting earlier ones for the same name. -/
def buildTable (files : List SrcFile) : List (String × FunctionDef) :=
  files.foldl
    (fun defs f => (fileDefs f.1 f.2).foldl (fun m d => mapSet m d.name d) defs)
    []

/-- `funcsInFile.filter(f => f.start <= matchIndex).slice(-1)[0]`, with the
`<module>` pseudo-function fallback. -/
def attributeCall (funcs : List FunctionDef) (moduleName : String) (o : Nat) :
    FunctionDef :=
  match (funcs.filter (fun f => f.start ≤ o)).getLast? with
  | some f => f
  | none => ⟨"<module>", moduleName, 0⟩

/-- The edge-map key `fr + "->" + to`, as a character list. -/
def edgeKey (fr toMod : String) : List Char :=
  fr.data ++ ['-', '>'] ++ toMod.data

/-- One resolved cross-module call: create the keyed edge if missing, then
push the callee name if it is not already on the edge. -/
def addCall (m : List (List Char × Edge)) (fr toMod fn : String) :
    List (List Char × Edge) :=
  let key := edgeKey fr toMod
  let m1 := if (mapGet m key).isSome then m else mapSet m key ⟨fr, toMod, []⟩
  match mapGet m1 key with
  | some e =>
    mapSet m1 key
      ⟨e.fromModule, e.toModule,
       if fn ∈ e.functions then e.functions else e.functions ++ [fn]⟩
  | none => m1

/-- Phase 2 body for one file: strip comments, scan calls, attribute each
call, resolve the callee through the symbol table, drop unresolved and
same-module calls, and accumulate the rest into the edge map. -/
def processFile (table : List (String × FunctionDef))
    (m : List (List Char × Edge)) (f : SrcFile) : List (List Char × Edge) :=
  (scanCalls (stripComments f.2)).foldl
    (fun m oc =>
      let caller := attributeCall (fileDefs f.1 f.2) f.1 oc.1
      match mapGet table oc.2 with
      | none => m
      | some d =>
        if caller.module = d.module then m
        else addCall m caller.module d.module oc.2)
    m

def buildEdges (table : List (String × FunctionDef)) (files : List SrcFile) :
    List (List Char × Edge) :=
  files.foldl (processFile table) []

/-- The whole core pipeline: the Graph Model handed to the renderer, with
`modules = Array.from(new Set(Array.from(defs.values()).map(d => d.module)))`
and the edges in `edgesMap` insertion order. -/
def pipeline (files : List SrcFile) : Graph :=
  let table := buildTable files
  { modules := dedupFirst ((mapValues table).map (fun d => d.module)),
    edges := mapValues (buildEdges table files) }

/-- An edge from `fr` to `toMod` carrying callee `fn` is observable in the
graph.  This is the order-insensitive reading of the edge set used by the
relational claims. -/
abbrev EdgeSem (g : Graph) (fr toMod fn : String) : Prop :=
  ∃ e ∈ g.edges, e.fromModule = fr ∧ e.toModule = toMod ∧ fn ∈ e.functions

/-! Lemmas about the JS `Map` model. -/

theorem mapGet_set_self {α β : Type} [DecidableEq α] (m : List (α × β))
    (k : α) (v : β) : mapGet (mapSet m k v) k = some v := by
  induction m with
  | nil => simp [mapSet, mapGet]
  | cons p rest ih =>
    obtain ⟨k', v'⟩ := p
    by_cases h : k' = k
    · simp [mapSet, mapGet, h]
    · simp [mapSet, mapGet, h, ih]

theorem mapGet_set_ne {α β : Type} [DecidableEq α] (m : List (α × β))
    {k k' : α} (v : β) (h : k ≠ k') :
    mapGet (mapSet m k v) k' = mapGet m k' := by
  induction m with
  | nil => simp [mapSet, mapGet, h]
  | cons p rest ih =>
    obtain ⟨k'', v''⟩ := p
    by_cases h2 : k'' = k
    · subst h2; simp [mapSet, mapGet, h]
    · simp [mapSet, mapGet, h2, ih]

theorem mem_of_mapGet_eq_some {α β : Type} [DecidableEq α]
    {m : List (α × β)} {k : α} {v : β} (h : mapGet m k = some v) :
    (k, v) ∈ m := by
  induction m with
  | nil => simp [mapGet] at h
  | cons p rest ih =>
    obtain ⟨k', v'⟩ := p
    rw [mapGet] at h
    split at h
    · rename_i he
      cases h
      subst he
      exact List.mem_cons_self _ _
    · exact List.mem_cons_of_mem _ (ih h)

theorem mem_mapSet {α β : Type} [DecidableEq α] {m : List (α × β)}
    {k : α} {v : β} {p : α × β} (h : p ∈ mapSet m k v) :
    p = (k, v) ∨ p ∈ m := by
  induction m with
  | nil => simp [mapSet] at h; exact Or.inl h
  | cons q rest ih =>
    obtain ⟨k', v'⟩ := q
    rw [mapSet] at h
    split at h
    · rcases List.mem_cons.mp h with h1 | h1
      · exact Or.inl h1
      · exact Or.inr (List.mem_cons_of_mem _ h1)
    · rcases List.mem_cons.mp h with h1 | h1
      · exact Or.inr (h1 ▸ List.mem_cons_self _ _)
      · rcases ih h1 with h2 | h2
        · exact Or.inl h2
        · exact Or.inr (List.mem_cons_of_mem _ h2)

theorem mem_keys_mapSet {α β : Type} [DecidableEq α] {m : List (α × β)}
    {k : α} {v : β} {x : α} (h : x ∈ (mapSet m k v).map Prod.fst) :
    x ∈ m.map Prod.fst ∨ x = k := by
  rcases List.mem_map.mp h with ⟨p, hp, hx⟩
  rcases mem_mapSet hp with h1 | h1
  · subst h1; exact Or.inr hx.symm
  · exact Or.inl (hx ▸ List.mem_map_of_mem _ h1)

theorem keys_nodup_mapSet {α β : Type} [DecidableEq α] {m : List (α × β)}
    (hnd : (m.map Prod.fst).Nodup) (k : α) (v : β) :
    ((mapSet m k v).map Prod.fst).Nodup := by
  induction m with
  | nil => simp [mapSet]
  | cons p rest ih =>
    obtain ⟨k', v'⟩ := p
    simp only [List.map_cons, List.nodup_cons] at hnd
    by_cases h : k' = k
    · subst h
      simpa [mapSet] using hnd
    · rw [mapSet, if_neg h]
      simp only [List.map_cons, List.nodup_cons]
      constructor
      · intro hmem
        rcases mem_keys_mapSet hmem with h1 | h1
        · exact hnd.1 h1
        · exact h h1
      · exact ih hnd.2

theorem mapGet_eq_some_of_mem_nodup {α β : Type} [DecidableEq α]
    {m : List (α × β)} (hnd : (m.map Prod.fst).Nodup) {k : α} {v : β}
    (h : (k, v) ∈ m) : mapGet m k = some v := by
  induction m with
  | nil => simp at h
  | cons p rest ih =>
    obtain ⟨k', v'⟩ := p
    simp only [List.map_cons, List.nodup_cons] at hnd
    rcases List.mem_cons.mp h with h1 | h1
    · cases h1
      simp [mapGet]
    · rw [mapGet]
      split
      · rename_i he
        exact absurd (he ▸ List.mem_map_of_mem Prod.fst h1) hnd.1
      · exact ih hnd.2 h1

/-! The symbol table: later insertions overwrite earlier ones, so a lookup
returns the last definition with that name in phase-1 processing order. -/

/-- Every definition produced for a file carries that file's module. -/
theorem fileDefs_module {moduleName : String} {text : List Char}
    {d : FunctionDef} (h : d ∈ fileDefs moduleName text) :
    d.module = moduleName := by
  rcases List.mem_map.mp h with ⟨p, _, rfl⟩
  rfl

/-- All definitions of all files, in phase-1 processing order. -/
def allDefs (files : List SrcFile) : List FunctionDef :=
  files.flatMap (fun f => fileDefs f.1 f.2)

theorem foldl_foldl_flatMap {α β γ : Type} (g : β → α → β) (h : γ → List α)
    (ls : List γ) (m : β) :
    ls.foldl (fun acc x => (h x).foldl g acc) m = (ls.flatMap h).foldl g m := by
  induction ls generalizing m with
  | nil => rfl
  | cons x rest ih => simp only [List.flatMap_cons, List.foldl_append,
      List.foldl_cons, ih]

theorem buildTable_eq (files : List SrcFile) :
    buildTable files = (allDefs files).foldl (fun m d => mapSet m d.name d) [] :=
  foldl_foldl_flatMap _ _ files []

theorem getLast?_cons_of_ne_nil {α : Type} (a : α) {l : List α} (h : l ≠ []) :
    (a :: l).getLast? = l.getLast? := by
  cases l with
  | nil => exact absurd rfl h
  | cons b t => exact List.getLast?_cons_cons

/-- Folding definitions into the map makes the last one with a given name
win; when no processed definition has the name, the map is unchanged. -/
theorem foldl_mapSet_get (ds : List FunctionDef)
    (m : List (String × FunctionDef)) (n : String) :
    mapGet (ds.foldl (fun m d => mapSet m d.name d) m) n =
      match (ds.filter (fun d => d.name = n)).getLast? with
      | some d => some d
      | none => mapGet m n := by
  induction ds generalizing m with
  | nil => simp
  | cons d rest ih =>
    rw [List.foldl_cons, ih]
    by_cases h : d.name = n
    · rw [List.filter_cons_of_pos (by simpa using h)]
      cases hr : (rest.filter (fun d => d.name = n)).getLast? with
      | some d' =>
        have hne : rest.filter (fun d => d.name = n) ≠ [] := by
          intro he; rw [he] at hr; simp at hr
        rw [getLast?_cons_of_ne_nil _ hne, hr]
      | none =>
        have he : rest.filter (fun d => d.name = n) = [] :=
          List.getLast?_eq_none_iff.mp hr
        rw [he]
        simp only [List.getLast?_singleton]
        rw [← h, mapGet_set_self]
    · rw [List.filter_cons_of_neg (by simpa using h)]
      cases hr : (rest.filter (fun d => d.name = n)).getLast? with
      | some d' => rfl
      | none => exact mapGet_set_ne m d h

/-- Symbol-table lookup is the last definition with that name over all
files, in processing order. -/
theorem buildTable_get (files : List SrcFile) (n : String) :
    mapGet (buildTable files) n =
      ((allDefs files).filter (fun d => d.name = n)).getLast? := by
  rw [buildTable_eq, foldl_mapSet_get]
  cases hr : ((allDefs files).filter (fun d => d.name = n)).getLast? <;>
    simp [mapGet]

theorem foldl_mapSet_keys_nodup (ds : List FunctionDef)
    (m : List (String × FunctionDef)) (h : (m.map Prod.fst).Nodup) :
    (((ds.foldl (fun m d => mapSet m d.name d) m)).map Prod.fst).Nodup := by
  induction ds generalizing m with
  | nil => exact h
  | cons d rest ih => exact ih _ (keys_nodup_mapSet h _ _)

/-- A file defines a name when its definition scan produces it. -/
abbrev DefinesName (f : SrcFile) (n : String) : Prop :=
  ∃ d ∈ fileDefs f.1 f.2, d.name = n

theorem filter_allDefs_eq_nil {files : List SrcFile} {n : String}
    (h : ∀ f ∈ files, ¬ DefinesName f n) :
    (allDefs files).filter (fun d => d.name = n) = [] := by
  rw [List.filter_eq_nil_iff]
  intro d hd
  rcases List.mem_flatMap.mp hd with ⟨f, hf, hdf⟩
  simp only [decide_eq_true_eq]
  intro he
  exact h f hf ⟨d, hdf, he⟩

/-- C4: the symbol table keys are unique, and when exactly two files define
a name `n`, the table maps `n` to a definition from the later-processed
file, so every caller of `n` resolves to that file's module. -/
theorem c4_overwrite_later_file_wins :
    (∀ files : List SrcFile, ((buildTable files).map Prod.fst).Nodup) ∧
    ∀ (pre mid post : List SrcFile) (f1 f2 : SrcFile) (n : String),
      DefinesName f1 n → DefinesName f2 n →
      (∀ f ∈ pre ++ mid ++ post, ¬ DefinesName f n) →
      ∃ d, mapGet (buildTable (pre ++ f1 :: (mid ++ f2 :: post))) n = some d ∧
        d.name = n ∧ d.module = f2.1 := by
  constructor
  · intro files
    rw [buildTable_eq]
    exact foldl_mapSet_keys_nodup _ _ (by simp)
  · intro pre mid post f1 f2 n h1 h2 hrest
    have hpre : ∀ f ∈ pre, ¬ DefinesName f n := fun f hf =>
      hrest f (by simp [hf])
    have hmid : ∀ f ∈ mid, ¬ DefinesName f n := fun f hf =>
      hrest f (by simp [hf])
    have hpost : ∀ f ∈ post, ¬ DefinesName f n := fun f hf =>
      hrest f (by simp [hf])
    rw [buildTable_get]
    have hsplit : allDefs (pre ++ f1 :: (mid ++ f2 :: post)) =
        allDefs pre ++ (fileDefs f1.1 f1.2 ++
          (allDefs mid ++ (fileDefs f2.1 f2.2 ++ allDefs post))) := by
      simp [allDefs, List.flatMap_append, List.flatMap_cons]
    rw [hsplit]
    simp only [List.filter_append]
    rw [filter_allDefs_eq_nil hpre, filter_allDefs_eq_nil hmid,
      filter_allDefs_eq_nil hpost]
    rcases h2 with ⟨d2, hd2, hd2n⟩
    have hne : (fileDefs f2.1 f2.2).filter (fun d => d.name = n) ≠ [] := by
      intro he
      have : d2 ∈ (fileDefs f2.1 f2.2).filter (fun d => d.name = n) :=
        List.mem_filter.mpr ⟨hd2, by simpa using hd2n⟩
      rw [he] at this
      simp at this
    simp only [List.nil_append, List.append_nil]
    rw [List.getLast?_append_of_ne_nil _ hne]
    cases hr : ((fileDefs f2.1 f2.2).filter (fun d => d.name = n)).getLast? with
    | none => exact absurd (List.getLast?_eq_none_iff.mp hr) hne
    | some d =>
      refine ⟨d, rfl, ?_, ?_⟩
      · have hmem : d ∈ (fileDefs f2.1 f2.2).filter (fun d => d.name = n) := by
          rcases List.mem_getLast?_eq_getLast (by rw [hr]; exact rfl) with ⟨hh, he⟩
          exact he ▸ List.getLast_mem hh
        simpa using (List.mem_filter.mp hmem).2
      · have hmem : d ∈ (fileDefs f2.1 f2.2).filter (fun d => d.name = n) := by
          rcases List.mem_getLast?_eq_getLast (by rw [hr]; exact rfl) with ⟨hh, he⟩
          exact he ▸ List.getLast_mem hh
        exact fileDefs_module (List.mem_filter.mp hmem).1

/-- Witness for C4: two files both define `init`; the second file's
definition is the one held and it resolves to module `b`. -/
theorem c4_overwrite_later_file_wins_witness :
    ∃ d, mapGet (buildTable [("a", "int init()\x7b\x7d".data),
        ("b", "int init()\x7b\x7d".data)]) "init" = some d ∧
      d.name = "init" ∧ d.module = "b" :=
  c4_overwrite_later_file_wins.2 [] [] [] ("a", "int init()\x7b\x7d".data)
    ("b", "int init()\x7b\x7d".data) "init" (by decide) (by decide)
    (by intro f hf; simp at hf)

/-! The scanner emits matches at strictly increasing offsets, so the
per-file definition list is sorted by `start` ascending and `slice(-1)`
of a filtered prefix picks the greatest admissible offset. -/

theorem mem_of_getLast? {α : Type} {l : List α} {x : α}
    (h : l.getLast? = some x) : x ∈ l := by
  rcases List.mem_getLast?_eq_getLast (show x ∈ l.getLast? from h) with ⟨hh, he⟩
  exact he ▸ List.getLast_mem hh

theorem scanAux_lb (f : List Char → Nat → Option (String × Nat))
    (s : List Char) :
    ∀ (fuel i : Nat), ∀ p ∈ scanAux f s fuel i, i ≤ p.1 := by
  intro fuel
  induction fuel with
  | zero => intro i p hp; simp [scanAux] at hp
  | succ fuel ih =>
    intro i p hp
    rw [scanAux] at hp
    split at hp
    · rcases List.mem_cons.mp hp with h | h
      · rw [h]
      · have := ih _ _ h
        omega
    · split at hp
      · have := ih _ _ hp
        omega
      · simp at hp

theorem scanAux_pairwise (f : List Char → Nat → Option (String × Nat))
    (s : List Char) :
    ∀ (fuel i : Nat), (scanAux f s fuel i).Pairwise (fun a b => a.1 < b.1) := by
  intro fuel
  induction fuel with
  | zero => intro i; simp [scanAux]
  | succ fuel ih =>
    intro i
    rw [scanAux]
    split
    · refine List.Pairwise.cons ?_ (ih _)
      intro p hp
      have := scanAux_lb f s fuel _ p hp
      simp only
      omega
    · split
      · exact ih _
      · simp

theorem fileDefs_pairwise (moduleName : String) (text : List Char) :
    (fileDefs moduleName text).Pairwise (fun a b => a.start < b.start) := by
  unfold fileDefs scanDefs
  rw [List.pairwise_map]
  exact scanAux_pairwise matchDefAt text _ 0

theorem getLast?_max_of_sorted {l : List FunctionDef}
    (hs : l.Pairwise (fun a b => a.start < b.start)) {x : FunctionDef}
    (hx : l.getLast? = some x) : ∀ d ∈ l, d.start ≤ x.start := by
  induction l with
  | nil => simp at hx
  | cons a t ih =>
    rcases List.pairwise_cons.mp hs with ⟨ha, ht⟩
    intro d hd
    cases t with
    | nil =>
      simp only [List.getLast?_singleton, Option.some_inj] at hx
      rcases List.mem_singleton.mp hd with rfl
      rw [hx]
    | cons b u =>
      rw [List.getLast?_cons_cons] at hx
      rcases List.mem_cons.mp hd with rfl | hd
      · exact Nat.le_of_lt (ha x (mem_of_getLast? hx))
      · exact ih ht hx d hd

/-- C3 is corrected: the synthetic pseudo-function created when no
definition precedes the call is named `<module>`, not `<module-level>`:
on a file whose text is just `bar();` the call at offset 0 is attributed
to a pseudo-function whose name differs from the claimed one. -/
theorem c3_pseudo_function_name_counterexample :
    (attributeCall (fileDefs "x" "bar();".data) "x" 0).name = "<module>" ∧
      ¬ (attributeCall (fileDefs "x" "bar();".data) "x" 0).name
          = "<module-level>" := by
  decide

/-- C3 as amended: each call site at offset `o` is attributed to the
definition of its file with the greatest `start ≤ o`; when none exists the
call goes to a synthetic pseudo-function owned by the file's module at
offset 0 — named `<module>` (the amendment). -/
theorem c3_nearest_preceding_definition (moduleName : String)
    (text : List Char) (o : Nat) :
    ((∃ d ∈ fileDefs moduleName text, d.start ≤ o) →
      attributeCall (fileDefs moduleName text) moduleName o
          ∈ fileDefs moduleName text ∧
        (attributeCall (fileDefs moduleName text) moduleName o).start ≤ o ∧
        ∀ d ∈ fileDefs moduleName text, d.start ≤ o →
          d.start ≤ (attributeCall (fileDefs moduleName text) moduleName o).start) ∧
    ((∀ d ∈ fileDefs moduleName text, ¬ d.start ≤ o) →
      attributeCall (fileDefs moduleName text) moduleName o =
        ⟨"<module>", moduleName, 0⟩) := by
  constructor
  · rintro ⟨d0, hd0, hd0o⟩
    have hne : (fileDefs moduleName text).filter (fun f => f.start ≤ o) ≠ [] := by
      intro he
      have : d0 ∈ (fileDefs moduleName text).filter (fun f => f.start ≤ o) :=
        List.mem_filter.mpr ⟨hd0, by simpa using hd0o⟩
      rw [he] at this
      simp at this
    cases hx : ((fileDefs moduleName text).filter (fun f => f.start ≤ o)).getLast? with
    | none => exact absurd (List.getLast?_eq_none_iff.mp hx) hne
    | some x =>
      have hattr : attributeCall (fileDefs moduleName text) moduleName o = x := by
        unfold attributeCall
        rw [hx]
      have hxmem := mem_of_getLast? hx
      have hxf := List.mem_filter.mp hxmem
      have hsorted : ((fileDefs moduleName text).filter
          (fun f => f.start ≤ o)).Pairwise (fun a b => a.start < b.start) :=
        (fileDefs_pairwise moduleName text).filter _
      refine ⟨hattr ▸ hxf.1, hattr ▸ (by simpa using hxf.2), ?_⟩
      intro d hd hdo
      have : d ∈ (fileDefs moduleName text).filter (fun f => f.start ≤ o) :=
        List.mem_filter.mpr ⟨hd, by simpa using hdo⟩
      exact hattr ▸ getLast?_max_of_sorted hsorted hx d this
  · intro hnone
    have he : (fileDefs moduleName text).filter (fun f => f.start ≤ o) = [] := by
      rw [List.filter_eq_nil_iff]
      intro d hd
      simpa using hnone d hd
    unfold attributeCall
    rw [he]
    rfl

/-- Witness for C3 as amended: in a file with definitions at offsets 0 and
10, the call at offset 12 is attributed to the offset-10 definition, the
greatest start not exceeding 12. -/
theorem c3_nearest_preceding_definition_witness :
    attributeCall (fileDefs "a" "int f()\x7b\x7d int g()\x7b\x7d".data) "a" 12
        ∈ fileDefs "a" "int f()\x7b\x7d int g()\x7b\x7d".data ∧
      (attributeCall (fileDefs "a" "int f()\x7b\x7d int g()\x7b\x7d".data) "a" 12).start ≤ 12 ∧
      ∀ d ∈ fileDefs "a" "int f()\x7b\x7d int g()\x7b\x7d".data, d.start ≤ 12 →
        d.start ≤ (attributeCall (fileDefs "a" "int f()\x7b\x7d int g()\x7b\x7d".data) "a" 12).start :=
  (c3_nearest_preceding_definition "a" "int f()\x7b\x7d int g()\x7b\x7d".data 12).1
    ⟨⟨"f", "a", 0⟩, by decide, by decide⟩

/-- C5 is corrected: the leading type/storage keyword of `funcRegex` is
required, not optional.  A function signature whose return type is not one
of the listed keywords — here `unsigned foo(int x){}` — produces no
definition at all. -/
theorem c5_optional_keyword_counterexample :
    scanDefs "unsigned foo(int x)\x7b\x7d".data = [] := by decide

/-- C5 as amended: the Definition Scanner records a definition only where
one of the listed type/storage keywords starts the match (every successful
match begins with a keyword), and with a keyword present the identifier is
recorded at the match's start offset. -/
theorem c5_keyword_required :
    (∀ (s : List Char) (i : Nat) (r : String × Nat), matchDefAt s i = some r →
      ∃ kw ∈ keywords, (s.drop i).take kw.data.length = kw.data) ∧
    scanDefs "void foo(int x)\x7b\x7d".data = [(0, "foo")] := by
  constructor
  · intro s i r h
    unfold matchDefAt at h
    cases hk : keywordAt s i with
    | none => rw [hk] at h; exact absurd h (by simp)
    | some klen =>
      rcases List.exists_of_findSome?_eq_some hk with ⟨kw, hkw, hf⟩
      refine ⟨kw, hkw, ?_⟩
      by_cases hc : (s.drop i).take kw.data.length = kw.data
      · exact hc
      · rw [if_neg hc] at hf
        exact absurd hf (by simp)
  · decide

/-- Witness for C5 as amended: the successful definition match at the start
of `void f()` indeed begins with a listed keyword. -/
theorem c5_keyword_required_witness :
    ∃ kw ∈ keywords, ("void f()".data.drop 0).take kw.data.length = kw.data :=
  c5_keyword_required.1 "void f()".data 0 ("f", 8) (by decide)

/-- C9: definition offsets are measured in the original text while call
offsets are measured in the comment-stripped text, and attribution compares
the two directly.  In `int a(){} /*comment*/ int b(){ foo(); }` the
definitions sit at original offsets 0 (`a`) and 22 (`b`); the call `foo`
textually inside `b` sits at stripped offset 20 (its original offset is
31), so `20 ≤ 22` makes the attributor assign it to the earlier
definition `a`. -/
theorem c9_stripped_offset_misattribution :
    fileDefs "m" "int a()\x7b\x7d /*comment*/ int b()\x7b foo(); \x7d".data =
        [⟨"a", "m", 0⟩, ⟨"b", "m", 22⟩] ∧
      (20, "foo") ∈ scanCalls (stripComments
        "int a()\x7b\x7d /*comment*/ int b()\x7b foo(); \x7d".data) ∧
      (31, "foo") ∈ scanCalls
        "int a()\x7b\x7d /*comment*/ int b()\x7b foo(); \x7d".data ∧
      attributeCall (fileDefs "m"
          "int a()\x7b\x7d /*comment*/ int b()\x7b foo(); \x7d".data) "m" 20 =
        ⟨"a", "m", 0⟩ := by
  decide

/-! C10: every definition-signature match contains an identifier followed
by `(`, which is itself a call-site match at the identifier position (the
preceding `\s+` guarantees the word boundary). -/

theorem takeWhile_get? {P : Char → Bool} :
    ∀ (l : List Char) (idx : Nat), idx < (l.takeWhile P).length →
      ∃ c, l.get? idx = some c ∧ P c = true := by
  intro l
  induction l with
  | nil => intro idx h; simp at h
  | cons a t ih =>
    intro idx h
    by_cases hp : P a
    · rw [List.takeWhile_cons_of_pos hp] at h
      cases idx with
      | zero => exact ⟨a, rfl, hp⟩
      | succ n =>
        simp only [List.length_cons, Nat.succ_lt_succ_iff] at h
        rcases ih n h with ⟨c, hc, hpc⟩
        exact ⟨c, hc, hpc⟩
    · rw [List.takeWhile_cons_of_neg hp] at h; simp at h

theorem not_word_of_space {c : Char} (h : isJsSpace c = true) :
    isWordChar c = false := by
  revert h
  simp only [isJsSpace, Bool.or_eq_true, decide_eq_true_eq]
  rintro (((((rfl | rfl) | rfl) | rfl) | rfl) | rfl) <;> decide

theorem def_match_gives_call_match {s : List Char} {i : Nat} {name : String}
    {e : Nat} (h : matchDefAt s i = some (name, e)) :
    ∃ p e2, matchCallAt s p = some (name, e2) := by
  unfold matchDefAt at h
  dsimp only at h
  split at h
  · exact absurd h (by simp)
  · rename_i klen hk
    split at h
    · exact absurd h (by simp)
    · rename_i hws
      split at h
      · exact absurd h (by simp)
      · rename_i name' k hid
        split at h
        · rename_i hpar
          split at h
          · rw [Option.some_inj] at h
            have hname : name' = name := congrArg Prod.fst h
            obtain ⟨c, hc, hcs⟩ := takeWhile_get? (s.drop (i + klen))
              (spacesAt s (i + klen) - 1)
              (show _ < ((s.drop (i + klen)).takeWhile isJsSpace).length by
                have hws2 : spacesAt s (i + klen) =
                    ((s.drop (i + klen)).takeWhile isJsSpace).length := rfl
                omega)
            have hc2 : s.get? (i + klen + (spacesAt s (i + klen) - 1)) = some c := by
              rw [← hc]
              simp [List.get?_eq_getElem?, List.getElem?_drop]
            have hb : wordBoundary s (i + klen + spacesAt s (i + klen)) = true := by
              have hp : i + klen + spacesAt s (i + klen) =
                  (i + klen + (spacesAt s (i + klen) - 1)) + 1 := by omega
              rw [hp]
              simp only [wordBoundary]
              rw [hc2]
              simp [not_word_of_space hcs]
            have hpar2 : s[k + spacesAt s k]? = some '(' := by
              simpa [List.get?_eq_getElem?] using hpar
            refine ⟨i + klen + spacesAt s (i + klen), k + spacesAt s k + 1, ?_⟩
            simp [matchCallAt, hb, hid, hname, hpar, hpar2]
          · exact absurd h (by simp)
        · exact absurd h (by simp)

/-- C10: every `funcRegex` match also yields a `callRegex` match on the
same name, so a defining file registers a call to its own function name;
when the symbol table maps that name to a later-processed file's module,
this yields a cross-module edge with no actual call expression: two files
both containing only `int f(){}` produce the edge `a -> b` labelled `[f]`. -/
theorem c10_self_call_spurious_edge :
    (∀ (s : List Char) (i : Nat) (name : String) (e : Nat),
        matchDefAt s i = some (name, e) →
        ∃ p e2, matchCallAt s p = some (name, e2)) ∧
      pipeline [("a", "int f()\x7b\x7d".data), ("b", "int f()\x7b\x7d".data)] =
        ⟨["b"], [⟨"a", "b", ["f"]⟩]⟩ :=
  ⟨fun _ _ _ _ h => def_match_gives_call_match h, by decide⟩

/-- Witness for C10: the definition match of `int f(){}` at offset 0 gives
a call-site match on `f`. -/
theorem c10_self_call_spurious_edge_witness :
    ∃ p e2, matchCallAt "int f()\x7b\x7d".data p = some ("f", e2) :=
  c10_self_call_spurious_edge.1 "int f()\x7b\x7d".data 0 "f" 8 (by decide)

/-- C1: on the two-file input where `a.c` is `int main(){ bar(); }` and
`b.c` is `void bar(){}`, the pipeline produces modules `{a, b}` and the
single edge `a -> b` whose functions list is exactly `[bar]`. -/
theorem c1_two_file_example :
    pipeline [("a", "int main()\x7b bar(); \x7d".data),
              ("b", "void bar()\x7b\x7d".data)] =
      ⟨["a", "b"], [⟨"a", "b", ["bar"]⟩]⟩ := by decide

/-- C7: two runs of the pipeline on the same unchanged file list yield
graphs with identical modules and identical observable edge sets (module
pairs with their function-name sets). -/
theorem c7_rerun_identical (files : List SrcFile) (g1 g2 : Graph)
    (h1 : g1 = pipeline files) (h2 : g2 = pipeline files) :
    g1.modules = g2.modules ∧
      ∀ fr toMod fn, EdgeSem g1 fr toMod fn ↔ EdgeSem g2 fr toMod fn := by
  subst h1; subst h2
  exact ⟨rfl, fun _ _ _ => Iff.rfl⟩

/-! C2: invariants of the edge accumulator. -/

theorem mem_dedupFirst {α : Type} [DecidableEq α] {l : List α} {x : α} :
    x ∈ dedupFirst l ↔ x ∈ l := by
  suffices h : ∀ (l : List α) (acc : List α),
      x ∈ l.foldl (fun acc y => if y ∈ acc then acc else acc ++ [y]) acc ↔
        x ∈ acc ∨ x ∈ l by
    simpa [dedupFirst] using h l []
  intro l
  induction l with
  | nil => simp
  | cons a t ih =>
    intro acc
    rw [List.foldl_cons, ih]
    by_cases ha : a ∈ acc
    · rw [if_pos ha]
      constructor
      · rintro (h | h)
        · exact Or.inl h
        · exact Or.inr (List.mem_cons_of_mem _ h)
      · rintro (h | h)
        · exact Or.inl h
        · rcases List.mem_cons.mp h with rfl | h
          · exact Or.inl ha
          · exact Or.inr h
    · rw [if_neg ha]
      constructor
      · rintro (h | h)
        · rcases List.mem_append.mp h with h | h
          · exact Or.inl h
          · simp only [List.mem_singleton] at h
            exact Or.inr (by simp [h])
        · exact Or.inr (List.mem_cons_of_mem _ h)
      · rintro (h | h)
        · exact Or.inl (List.mem_append.mpr (Or.inl h))
        · rcases List.mem_cons.mp h with rfl | h
          · exact Or.inl (List.mem_append.mpr (Or.inr (by simp)))
          · exact Or.inr h

theorem foldl_preserve {α β : Type} {P : β → Prop} (g : β → α → β)
    (hg : ∀ m x, P m → P (g m x)) :
    ∀ (l : List α) (m : β), P m → P (l.foldl g m) := by
  intro l
  induction l with
  | nil => exact fun m h => h
  | cons x t ih => intro m h; exact ih _ (hg m x h)

/-- `addCall` only ever stores records whose module pair already satisfies
any property holding for the existing records and for the inserted pair. -/
theorem addCall_preserve {Q : String → String → Prop}
    {m : List (List Char × Edge)}
    (hm : ∀ p ∈ m, Q p.2.fromModule p.2.toModule) {fr toMod fn : String}
    (hq : Q fr toMod) :
    ∀ p ∈ addCall m fr toMod fn, Q p.2.fromModule p.2.toModule := by
  intro p hp
  have hm1 : ∀ q ∈ (if (mapGet m (edgeKey fr toMod)).isSome then m
      else mapSet m (edgeKey fr toMod) ⟨fr, toMod, []⟩),
      Q q.2.fromModule q.2.toModule := by
    intro q hq2
    split at hq2
    · exact hm q hq2
    · rcases mem_mapSet hq2 with h2 | h2
      · subst h2; exact hq
      · exact hm q h2
  unfold addCall at hp
  dsimp only at hp
  cases hget : mapGet (if (mapGet m (edgeKey fr toMod)).isSome then m
      else mapSet m (edgeKey fr toMod) ⟨fr, toMod, []⟩) (edgeKey fr toMod) with
  | none =>
    rw [hget] at hp
    exact hm1 p hp
  | some e =>
    rw [hget] at hp
    rcases mem_mapSet hp with h2 | h2
    · subst h2
      exact hm1 (edgeKey fr toMod, e) (mem_of_mapGet_eq_some hget)
    · exact hm1 p h2

/-- Every record in the final edge map has distinct endpoint modules and a
target module that is the module of some symbol-table entry. -/
theorem buildEdges_records (table : List (String × FunctionDef))
    (files : List SrcFile) :
    ∀ p ∈ buildEdges table files,
      p.2.fromModule ≠ p.2.toModule ∧
        ∃ n d, mapGet table n = some d ∧ d.module = p.2.toModule := by
  have hstep : ∀ (m : List (List Char × Edge)) (f : SrcFile),
      (∀ p ∈ m, p.2.fromModule ≠ p.2.toModule ∧
        ∃ n d, mapGet table n = some d ∧ d.module = p.2.toModule) →
      ∀ p ∈ processFile table m f,
        p.2.fromModule ≠ p.2.toModule ∧
          ∃ n d, mapGet table n = some d ∧ d.module = p.2.toModule := by
    intro m f hm
    unfold processFile
    refine foldl_preserve (P := fun m => ∀ p ∈ m,
        p.2.fromModule ≠ p.2.toModule ∧
          ∃ n d, mapGet table n = some d ∧ d.module = p.2.toModule) _ ?_ _ m hm
    intro m oc hm2
    dsimp only
    cases hget : mapGet table oc.2 with
    | none => exact hm2
    | some d =>
      dsimp only
      by_cases heq : (attributeCall (fileDefs f.1 f.2) f.1 oc.1).module = d.module
      · rw [if_pos heq]
        exact hm2
      · rw [if_neg heq]
        exact addCall_preserve (Q := fun frM toM => frM ≠ toM ∧
          ∃ n d, mapGet table n = some d ∧ d.module = toM) hm2
          ⟨heq, oc.2, d, hget, rfl⟩
  exact foldl_preserve (P := fun m => ∀ p ∈ m,
      p.2.fromModule ≠ p.2.toModule ∧
        ∃ n d, mapGet table n = some d ∧ d.module = p.2.toModule)
    _ (fun m f hm => hstep m f hm) files [] (by intro p hp; simp at hp)

/-- C2 is corrected: `fromModule` need not be in `modules`.  A file `x.c`
containing only the call `bar();` owns no definition (so `x` is not in the
final modules set) yet contributes the edge `x -> b`. -/
theorem c2_from_module_counterexample :
    (⟨"x", "b", ["bar"]⟩ : Edge) ∈
        (pipeline [("x", "bar();".data),
          ("b", "void bar()\x7b\x7d".data)]).edges ∧
      ¬ "x" ∈ (pipeline [("x", "bar();".data),
          ("b", "void bar()\x7b\x7d".data)]).modules := by
  decide

/-- C2 as amended: for every run, every edge satisfies
`fromModule ≠ toModule`, and its `toModule` is a member of `modules` (the
modules of the surviving symbol-table entries); `fromModule` however may
fall outside `modules`. -/
theorem c2_edge_endpoints (files : List SrcFile) (e : Edge)
    (he : e ∈ (pipeline files).edges) :
    e.fromModule ≠ e.toModule ∧ e.toModule ∈ (pipeline files).modules := by
  have he2 : e ∈ mapValues (buildEdges (buildTable files) files) := he
  rcases List.mem_map.mp he2 with ⟨p, hp, hpe⟩
  rcases buildEdges_records (buildTable files) files p hp with ⟨hne, n, d, hget, hmod⟩
  constructor
  · rw [← hpe]; exact hne
  · show e.toModule ∈ dedupFirst ((mapValues (buildTable files)).map
      (fun d => d.module))
    rw [mem_dedupFirst]
    refine List.mem_map.mpr ⟨d, ?_, by rw [hmod, hpe]⟩
    exact List.mem_map.mpr ⟨(n, d), mem_of_mapGet_eq_some hget, rfl⟩

/-- Witness for C2 as amended, on the C1 example graph. -/
theorem c2_edge_endpoints_witness :
    ("a" : String) ≠ "b" ∧ ("b" : String) ∈
      (pipeline [("a", "int main()\x7b bar(); \x7d".data),
        ("b", "void bar()\x7b\x7d".data)]).modules := by
  have h := c2_edge_endpoints
    [("a", "int main()\x7b bar(); \x7d".data), ("b", "void bar()\x7b\x7d".data)]
    ⟨"a", "b", ["bar"]⟩ (by decide)
  exact h

/-- Witness for C7 at a concrete two-file input. -/
theorem c7_rerun_identical_witness :
    (pipeline [("a", "int main()\x7b bar(); \x7d".data)]).modules =
        (pipeline [("a", "int main()\x7b bar(); \x7d".data)]).modules ∧
      ∀ fr toMod fn,
        EdgeSem (pipeline [("a", "int main()\x7b bar(); \x7d".data)]) fr toMod fn ↔
          EdgeSem (pipeline [("a", "int main()\x7b bar(); \x7d".data)]) fr toMod fn :=
  c7_rerun_identical _ _ _ rfl rfl

/-! C6: the edge fold seen as a fold over the per-file resolved call
triples `(callerModule, calleeModule, calleeName)`. -/

abbrev Triple := String × String × String

/-- The resolved cross-module calls a single file contributes, in call
order: the body of the phase-2 loop minus the accumulator. -/
def fileTriples (table : List (String × FunctionDef)) (f : SrcFile) :
    List Triple :=
  (scanCalls (stripComments f.2)).filterMap
    (fun oc =>
      let caller := attributeCall (fileDefs f.1 f.2) f.1 oc.1
      match mapGet table oc.2 with
      | none => none
      | some d =>
        if caller.module = d.module then none
        else some (caller.module, d.module, oc.2))

def addTriple (m : List (List Char × Edge)) (t : Triple) :
    List (List Char × Edge) :=
  addCall m t.1 t.2.1 t.2.2

def allTriples (table : List (String × FunctionDef)) (files : List SrcFile) :
    List Triple :=
  files.flatMap (fileTriples table)

theorem processFile_eq (table : List (String × FunctionDef))
    (m : List (List Char × Edge)) (f : SrcFile) :
    processFile table m f = (fileTriples table f).foldl addTriple m := by
  unfold processFile fileTriples
  generalize scanCalls (stripComments f.2) = calls
  induction calls generalizing m with
  | nil => rfl
  | cons oc rest ih =>
    rw [List.foldl_cons, List.filterMap_cons]
    dsimp only
    cases hget : mapGet table oc.2 with
    | none => exact ih m
    | some d =>
      dsimp only
      by_cases heq : (attributeCall (fileDefs f.1 f.2) f.1 oc.1).module = d.module
      · simp only [if_pos heq]
        exact ih m
      · simp only [if_neg heq]
        exact ih _

theorem buildEdges_eq (table : List (String × FunctionDef))
    (files : List SrcFile) :
    buildEdges table files = (allTriples table files).foldl addTriple [] := by
  unfold buildEdges allTriples
  rw [← foldl_foldl_flatMap addTriple (fileTriples table) files []]
  have hfun : (fun acc f => processFile table acc f) =
      (fun acc f => (fileTriples table f).foldl addTriple acc) :=
    funext fun acc => funext fun f => processFile_eq table acc f
  exact congrArg
    (fun g => List.foldl g ([] : List (List Char × Edge)) files) hfun

theorem mapSet_mapSet {α β : Type} [DecidableEq α] (m : List (α × β))
    (k : α) (v v' : β) : mapSet (mapSet m k v) k v' = mapSet m k v' := by
  induction m with
  | nil => simp [mapSet]
  | cons p rest ih =>
    obtain ⟨k', v''⟩ := p
    by_cases h : k' = k
    · simp [mapSet, h]
    · simp [mapSet, h, ih]

theorem addCall_of_get_some {m : List (List Char × Edge)}
    {fr toMod fn : String} {e : Edge}
    (h : mapGet m (edgeKey fr toMod) = some e) :
    addCall m fr toMod fn = mapSet m (edgeKey fr toMod)
      ⟨e.fromModule, e.toModule,
        if fn ∈ e.functions then e.functions else e.functions ++ [fn]⟩ := by
  unfold addCall
  dsimp only
  rw [show (if (mapGet m (edgeKey fr toMod)).isSome = true then m
      else mapSet m (edgeKey fr toMod) ⟨fr, toMod, []⟩) = m by rw [h]; rfl, h]

theorem addCall_of_get_none {m : List (List Char × Edge)}
    {fr toMod fn : String} (h : mapGet m (edgeKey fr toMod) = none) :
    addCall m fr toMod fn =
      mapSet m (edgeKey fr toMod) ⟨fr, toMod, [fn]⟩ := by
  unfold addCall
  dsimp only
  rw [show (if (mapGet m (edgeKey fr toMod)).isSome = true then m
      else mapSet m (edgeKey fr toMod) ⟨fr, toMod, []⟩) =
      mapSet m (edgeKey fr toMod) ⟨fr, toMod, []⟩ by rw [h]; rfl]
  rw [mapGet_set_self]
  dsimp only
  rw [mapSet_mapSet]
  simp

def tripleKey (t : Triple) : List Char := edgeKey t.1 t.2.1

/-- Key collisions among the processed triples identify the module pair
(this holds whenever module names avoid `>`, see `edgeKey_inj`). -/
def KeyInj (ts : List Triple) : Prop :=
  ∀ t1 ∈ ts, ∀ t2 ∈ ts, tripleKey t1 = tripleKey t2 →
    t1.1 = t2.1 ∧ t1.2.1 = t2.2.1

/-- The edge-map fold invariant: keys mirror the stored module pair, keys
are unique, every stored pair and every stored function stems from a
processed triple, functions are never empty, and — given key injectivity —
an observable `(fromModule, toModule, function)` is stored exactly when it
was processed. -/
theorem foldl_addTriple_inv :
    ∀ (ts seen : List Triple) (m : List (List Char × Edge)),
      KeyInj (seen ++ ts) →
      (∀ p ∈ m, p.1 = edgeKey p.2.fromModule p.2.toModule) →
      ((m.map Prod.fst).Nodup) →
      (∀ p ∈ m, ∃ fn2, (p.2.fromModule, p.2.toModule, fn2) ∈ seen) →
      (∀ p ∈ m, p.2.functions ≠ []) →
      (∀ fr toMod fn,
        (∃ e, mapGet m (edgeKey fr toMod) = some e ∧ e.fromModule = fr ∧
          e.toModule = toMod ∧ fn ∈ e.functions) ↔ (fr, toMod, fn) ∈ seen) →
      (∀ p ∈ ts.foldl addTriple m, p.1 = edgeKey p.2.fromModule p.2.toModule) ∧
      (((ts.foldl addTriple m).map Prod.fst).Nodup) ∧
      (∀ p ∈ ts.foldl addTriple m,
        ∃ fn2, (p.2.fromModule, p.2.toModule, fn2) ∈ seen ++ ts) ∧
      (∀ p ∈ ts.foldl addTriple m, p.2.functions ≠ []) ∧
      (∀ fr toMod fn,
        (∃ e, mapGet (ts.foldl addTriple m) (edgeKey fr toMod) = some e ∧
          e.fromModule = fr ∧ e.toModule = toMod ∧ fn ∈ e.functions) ↔
          (fr, toMod, fn) ∈ seen ++ ts) := by
  intro ts
  induction ts with
  | nil =>
    intro seen m _ hA hB hD hE hC
    simp only [List.foldl_nil, List.append_nil]
    exact ⟨hA, hB, hD, hE, hC⟩
  | cons t ts ih =>
    intro seen m hinj hA hB hD hE hC
    obtain ⟨fr0, to0, fn0⟩ := t
    rw [List.foldl_cons]
    have htmem : ((fr0, to0, fn0) : Triple) ∈ seen ++ (fr0, to0, fn0) :: ts :=
      List.mem_append_right _ (List.mem_cons_self _ _)
    -- the record written by this step, uniform over the two map states
    obtain ⟨rec, hrec_eq, hrec_from, hrec_to, hrec_fns_old, hrec_fns_new,
        hrec_ne⟩ :
        ∃ rec : Edge,
          addTriple m (fr0, to0, fn0) =
            mapSet m (edgeKey fr0 to0) rec ∧
          rec.fromModule = fr0 ∧ rec.toModule = to0 ∧
          (∀ fn, (∃ e, mapGet m (edgeKey fr0 to0) = some e ∧
              fn ∈ e.functions) → fn ∈ rec.functions) ∧
          (fn0 ∈ rec.functions ∧ ∀ fn, fn ∈ rec.functions →
            fn = fn0 ∨ ∃ e, mapGet m (edgeKey fr0 to0) = some e ∧
              fn ∈ e.functions) ∧
          rec.functions ≠ [] := by
      cases hget : mapGet m (edgeKey fr0 to0) with
      | none =>
        refine ⟨⟨fr0, to0, [fn0]⟩, addCall_of_get_none hget, rfl, rfl, ?_, ?_, by simp⟩
        · rintro fn ⟨e, he, _⟩
          exact absurd he (by simp)
        · refine ⟨by simp, ?_⟩
          intro fn hfn
          simp only [List.mem_singleton] at hfn
          exact Or.inl hfn
      | some e =>
        have hmem := mem_of_mapGet_eq_some hget
        have hkey : edgeKey fr0 to0 = edgeKey e.fromModule e.toModule :=
          hA _ hmem
        obtain ⟨fn2, hfn2⟩ := hD _ hmem
        have hft : e.fromModule = fr0 ∧ e.toModule = to0 := by
          have h1 : ((e.fromModule, e.toModule, fn2) : Triple) ∈
              seen ++ (fr0, to0, fn0) :: ts := List.mem_append_left _ hfn2
          exact hinj _ h1 _ htmem (by simpa [tripleKey] using hkey.symm)
        refine ⟨⟨e.fromModule, e.toModule,
            if fn0 ∈ e.functions then e.functions
            else e.functions ++ [fn0]⟩, addCall_of_get_some hget,
          hft.1, hft.2, ?_, ?_, ?_⟩
        · rintro fn ⟨e', he', hfe'⟩
          cases he'
          dsimp only
          split
          · exact hfe'
          · exact List.mem_append_left _ hfe'
        · constructor
          · dsimp only
            split
            · assumption
            · simp
          · intro fn hfn
            dsimp only at hfn
            split at hfn
            · exact Or.inr ⟨e, rfl, hfn⟩
            · rcases List.mem_append.mp hfn with h2 | h2
              · exact Or.inr ⟨e, rfl, h2⟩
              · simp only [List.mem_singleton] at h2
                exact Or.inl h2
        · dsimp only
          split
          · exact hE _ hmem
          · simp
    rw [show addTriple m (fr0, to0, fn0) =
        mapSet m (edgeKey fr0 to0) rec from hrec_eq]
    -- invariants for the new map state
    have hA' : ∀ p ∈ mapSet m (edgeKey fr0 to0) rec,
        p.1 = edgeKey p.2.fromModule p.2.toModule := by
      intro p hp
      rcases mem_mapSet hp with h2 | h2
      · subst h2; simp [hrec_from, hrec_to]
      · exact hA p h2
    have hB' : ((mapSet m (edgeKey fr0 to0) rec).map Prod.fst).Nodup :=
      keys_nodup_mapSet hB _ _
    have hD' : ∀ p ∈ mapSet m (edgeKey fr0 to0) rec,
        ∃ fn2, (p.2.fromModule, p.2.toModule, fn2) ∈
          seen ++ [((fr0, to0, fn0) : Triple)] := by
      intro p hp
      rcases mem_mapSet hp with h2 | h2
      · subst h2
        exact ⟨fn0, by simp [hrec_from, hrec_to]⟩
      · obtain ⟨fn2, hfn2⟩ := hD p h2
        exact ⟨fn2, List.mem_append_left _ hfn2⟩
    have hE' : ∀ p ∈ mapSet m (edgeKey fr0 to0) rec, p.2.functions ≠ [] := by
      intro p hp
      rcases mem_mapSet hp with h2 | h2
      · subst h2; exact hrec_ne
      · exact hE p h2
    have hC' : ∀ fr toMod fn,
        (∃ e, mapGet (mapSet m (edgeKey fr0 to0) rec) (edgeKey fr toMod) =
          some e ∧ e.fromModule = fr ∧ e.toModule = toMod ∧
          fn ∈ e.functions) ↔
        (fr, toMod, fn) ∈ seen ++ [((fr0, to0, fn0) : Triple)] := by
      intro fr toMod fn
      by_cases hkk : edgeKey fr toMod = edgeKey fr0 to0
      · constructor
        · rintro ⟨e', he', h1, h2, h3⟩
          rw [hkk, mapGet_set_self] at he'
          cases he'
          rcases (hrec_fns_new.2 fn h3) with rfl | ⟨e, hge, hfe⟩
          · have hfr : fr = fr0 := by rw [← h1, hrec_from]
            have hto : toMod = to0 := by rw [← h2, hrec_to]
            refine List.mem_append_right _ ?_
            simp [hfr, hto]
          · obtain ⟨fn2, hfn2⟩ := hD _ (mem_of_mapGet_eq_some hge)
            have hkey2 := hA _ (mem_of_mapGet_eq_some hge)
            have hft := hinj _ (List.mem_append_left _ hfn2) _ htmem
              (by simpa [tripleKey] using hkey2.symm)
            have hft1 : e.fromModule = fr0 := hft.1
            have hft2 : e.toModule = to0 := hft.2
            refine List.mem_append_left _ ((hC fr toMod fn).mp ?_)
            refine ⟨e, by rw [hkk]; exact hge, ?_, ?_, hfe⟩
            · rw [hft1, ← hrec_from]; exact h1
            · rw [hft2, ← hrec_to]; exact h2
        · intro hmem
          rcases List.mem_append.mp hmem with h2 | h2
          · obtain ⟨e'', he'', h1, h2', h3⟩ := (hC fr toMod fn).mpr h2
            have hfrto := hinj _ (List.mem_append_left _ h2) _ htmem
              (by simpa [tripleKey] using hkk)
            have hfr : fr = fr0 := hfrto.1
            have hto : toMod = to0 := hfrto.2
            refine ⟨rec, by rw [hkk]; exact mapGet_set_self _ _ _, ?_, ?_, ?_⟩
            · rw [hrec_from]; exact hfr.symm
            · rw [hrec_to]; exact hto.symm
            · refine hrec_fns_old fn ⟨e'', ?_, h3⟩
              rw [← hkk]; exact he''
          · simp only [List.mem_singleton] at h2
            cases h2
            exact ⟨rec, by rw [hkk]; exact mapGet_set_self _ _ _,
              hrec_from, hrec_to, hrec_fns_new.1⟩
      · have hne : edgeKey fr0 to0 ≠ edgeKey fr toMod := fun h => hkk h.symm
        rw [mapGet_set_ne m rec hne]
        rw [hC fr toMod fn]
        constructor
        · exact fun h => List.mem_append_left _ h
        · intro hmem
          rcases List.mem_append.mp hmem with h2 | h2
          · exact h2
          · simp only [List.mem_singleton] at h2
            cases h2
            exact absurd rfl hkk
    have happ : seen ++ ((fr0, to0, fn0) : Triple) :: ts =
        (seen ++ [((fr0, to0, fn0) : Triple)]) ++ ts := by simp
    rw [happ] at hinj
    have hres := ih (seen ++ [((fr0, to0, fn0) : Triple)])
      (mapSet m (edgeKey fr0 to0) rec) hinj hA' hB' hD' hE' hC'
    rw [happ]
    exact hres

/-- Given key injectivity, an observable edge fact of the folded map is
exactly a processed triple. -/
theorem edges_iff_triples (ts : List Triple) (hinj : KeyInj ts)
    (fr toMod fn : String) :
    (∃ e ∈ mapValues (ts.foldl addTriple []), e.fromModule = fr ∧
      e.toModule = toMod ∧ fn ∈ e.functions) ↔ (fr, toMod, fn) ∈ ts := by
  obtain ⟨hA, hB, hD, hE, hC⟩ := foldl_addTriple_inv ts [] []
    (by simpa using hinj) (by simp) (by simp) (by simp) (by simp)
    (by intro fr toMod fn; simp [mapGet])
  simp only [List.nil_append] at hC
  constructor
  · rintro ⟨e, he, h1, h2, h3⟩
    rcases List.mem_map.mp he with ⟨p, hp, hpe⟩
    have hkey : p.1 = edgeKey p.2.fromModule p.2.toModule := hA p hp
    have hget : mapGet (ts.foldl addTriple []) p.1 = some p.2 :=
      mapGet_eq_some_of_mem_nodup hB (by exact hp)
    rw [← hC fr toMod fn]
    have hkeq : edgeKey fr toMod = p.1 := by
      rw [hkey, hpe, h1, h2]
    refine ⟨p.2, by rw [hkeq]; exact hget, by rw [hpe]; exact h1,
      by rw [hpe]; exact h2, by rw [hpe]; exact h3⟩
  · intro h
    obtain ⟨e, he, h1, h2, h3⟩ := (hC fr toMod fn).mpr h
    refine ⟨e, ?_, h1, h2, h3⟩
    exact List.mem_map.mpr ⟨(edgeKey fr toMod, e), mem_of_mapGet_eq_some he, rfl⟩

theorem edgeSem_iff (files : List SrcFile)
    (hinj : KeyInj (allTriples (buildTable files) files))
    (fr toMod fn : String) :
    EdgeSem (pipeline files) fr toMod fn ↔
      (fr, toMod, fn) ∈ allTriples (buildTable files) files := by
  show (∃ e ∈ mapValues (buildEdges (buildTable files) files),
    e.fromModule = fr ∧ e.toModule = toMod ∧ fn ∈ e.functions) ↔ _
  rw [buildEdges_eq]
  exact edges_iff_triples _ hinj fr toMod fn

/-- Splitting around the `->` marker is unambiguous when the left parts
avoid `>`. -/
theorem append_marker_inj :
    ∀ (xa : List Char), ('>' : Char) ∉ xa → ∀ (xc : List Char),
      ('>' : Char) ∉ xc → ∀ (xb xd : List Char),
        xa ++ '-' :: '>' :: xb = xc ++ '-' :: '>' :: xd →
        xa = xc ∧ xb = xd := by
  intro xa
  induction xa with
  | nil =>
    intro _ xc hc xb xd h
    cases xc with
    | nil =>
      simp only [List.nil_append, List.cons.injEq, true_and] at h
      exact ⟨rfl, h⟩
    | cons c tc =>
      simp only [List.nil_append, List.cons_append, List.cons.injEq] at h
      obtain ⟨h1, h2⟩ := h
      cases tc with
      | nil =>
        simp only [List.nil_append, List.cons.injEq] at h2
        exact absurd h2.1 (by decide)
      | cons c2 t2 =>
        simp only [List.cons_append, List.cons.injEq] at h2
        refine absurd ?_ hc
        rw [h2.1]
        exact List.mem_cons_of_mem _ (List.mem_cons_self _ _)
  | cons a ta ih =>
    intro ha xc hc xb xd h
    cases xc with
    | nil =>
      simp only [List.cons_append, List.nil_append, List.cons.injEq] at h
      obtain ⟨h1, h2⟩ := h
      cases ta with
      | nil =>
        simp only [List.nil_append, List.cons.injEq] at h2
        exact absurd h2.1 (by decide)
      | cons a2 t2 =>
        simp only [List.cons_append, List.cons.injEq] at h2
        refine absurd ?_ ha
        rw [← h2.1]
        exact List.mem_cons_of_mem _ (List.mem_cons_self _ _)
    | cons c tc =>
      simp only [List.cons_append, List.cons.injEq] at h
      obtain ⟨h1, h2⟩ := h
      have ha2 : ('>' : Char) ∉ ta := fun hx => ha (List.mem_cons_of_mem _ hx)
      have hc2 : ('>' : Char) ∉ tc := fun hx => hc (List.mem_cons_of_mem _ hx)
      obtain ⟨he1, he2⟩ := ih ha2 tc hc2 xb xd h2
      exact ⟨by rw [h1, he1], he2⟩

theorem edgeKey_inj {a b c d : String} (ha : ('>' : Char) ∉ a.data)
    (hc : ('>' : Char) ∉ c.data) (h : edgeKey a b = edgeKey c d) :
    a = c ∧ b = d := by
  unfold edgeKey at h
  have h2 : a.data ++ '-' :: '>' :: b.data = c.data ++ '-' :: '>' :: d.data := by
    simpa [List.append_assoc] using h
  obtain ⟨e1, e2⟩ := append_marker_inj a.data ha c.data hc b.data d.data h2
  exact ⟨congrArg String.mk e1, congrArg String.mk e2⟩

/-- The attributed caller of a call always carries the file's own module
(both the real definitions of the file and the fallback do). -/
theorem attributeCall_module (moduleName : String) (text : List Char)
    (o : Nat) :
    (attributeCall (fileDefs moduleName text) moduleName o).module =
      moduleName := by
  unfold attributeCall
  cases hx : ((fileDefs moduleName text).filter
      (fun f => f.start ≤ o)).getLast? with
  | none => rfl
  | some x =>
    have hmem := mem_of_getLast? hx
    exact fileDefs_module (List.mem_filter.mp hmem).1

/-- Every symbol-table value is a definition of one of the files. -/
theorem table_value_module {files : List SrcFile} {n : String}
    {d : FunctionDef} (h : mapGet (buildTable files) n = some d) :
    ∃ f ∈ files, d.module = f.1 := by
  rw [buildTable_get] at h
  have hmem := mem_of_getLast? h
  have hd : d ∈ allDefs files := (List.mem_filter.mp hmem).1
  rcases List.mem_flatMap.mp hd with ⟨f, hf, hdf⟩
  exact ⟨f, hf, fileDefs_module hdf⟩

theorem fileTriples_mem {table : List (String × FunctionDef)} {f : SrcFile}
    {t : Triple} (h : t ∈ fileTriples table f) :
    t.1 = f.1 ∧ ∃ d, mapGet table t.2.2 = some d ∧ d.module = t.2.1 := by
  unfold fileTriples at h
  rcases List.mem_filterMap.mp h with ⟨oc, _, hoc⟩
  dsimp only at hoc
  cases hget : mapGet table oc.2 with
  | none =>
    rw [hget] at hoc
    exact absurd hoc (by simp)
  | some d =>
    rw [hget] at hoc
    dsimp only at hoc
    split at hoc
    · exact absurd hoc (by simp)
    · injection hoc with hoc2
      subst hoc2
      exact ⟨attributeCall_module f.1 f.2 oc.1, d, hget, rfl⟩

theorem keyInj_allTriples {files : List SrcFile}
    (hgt : ∀ f ∈ files, ('>' : Char) ∉ f.1.data) :
    KeyInj (allTriples (buildTable files) files) := by
  have hmods : ∀ t ∈ allTriples (buildTable files) files,
      ('>' : Char) ∉ t.1.data := by
    intro t ht
    rcases List.mem_flatMap.mp ht with ⟨f, hf, htf⟩
    rw [(fileTriples_mem htf).1]
    exact hgt f hf
  intro t1 h1 t2 h2 hk
  exact edgeKey_inj (hmods t1 h1) (hmods t2 h2) hk

/-- Two files with no function name defined in both. -/
def DisjointNames (f g : SrcFile) : Prop :=
  ∀ n, DefinesName f n → ¬ DefinesName g n

/-- The definitions of one file carrying a given name. -/
def perFile (n : String) (f : SrcFile) : List FunctionDef :=
  (fileDefs f.1 f.2).filter (fun d => d.name = n)

theorem filter_allDefs_eq_join (files : List SrcFile) (n : String) :
    (allDefs files).filter (fun d => d.name = n) =
      (files.map (perFile n)).flatten := by
  induction files with
  | nil => rfl
  | cons f t ih =>
    simp only [allDefs, List.flatMap_cons, List.filter_append, List.map_cons,
      List.flatten_cons]
    rw [← ih]
    rfl

theorem join_filter_not_empty {α : Type} (L : List (List α)) :
    (L.filter (fun l => !l.isEmpty)).flatten = L.flatten := by
  induction L with
  | nil => rfl
  | cons x t ih =>
    cases x with
    | nil => simpa [List.filter_cons] using ih
    | cons a u => simp [List.filter_cons, ih]

theorem join_eq_of_perm_subsingleton {α : Type} {L1 L2 : List (List α)}
    (hp : L1.Perm L2)
    (hlen : (L1.filter (fun l => !l.isEmpty)).length ≤ 1) :
    L1.flatten = L2.flatten := by
  have hpf : (L1.filter (fun l => !l.isEmpty)).Perm
      (L2.filter (fun l => !l.isEmpty)) := hp.filter _
  have heq : L1.filter (fun l => !l.isEmpty) =
      L2.filter (fun l => !l.isEmpty) := by
    cases hcase : L1.filter (fun l => !l.isEmpty) with
    | nil =>
      rw [hcase] at hpf
      exact hpf.nil_eq
    | cons x t =>
      rw [hcase] at hpf hlen
      have ht : t = [] := by
        simp only [List.length_cons] at hlen
        exact List.eq_nil_of_length_eq_zero (by omega)
      subst ht
      exact List.singleton_perm.mp hpf
  rw [← join_filter_not_empty L1, ← join_filter_not_empty L2, heq]

theorem count_defining_le_one {files : List SrcFile}
    (hdis : files.Pairwise DisjointNames) (n : String) :
    ((files.map (perFile n)).filter (fun l => !l.isEmpty)).length ≤ 1 := by
  induction files with
  | nil => simp
  | cons f t ih =>
    rcases List.pairwise_cons.mp hdis with ⟨hf, ht⟩
    by_cases hd : (perFile n f).isEmpty
    · simp only [List.map_cons, List.filter_cons, hd]
      simpa using ih ht
    · have hne : perFile n f ≠ [] := by
        intro he
        rw [he] at hd
        simp at hd
      obtain ⟨d0, hd0⟩ := List.exists_mem_of_ne_nil _ hne
      have hdef : DefinesName f n := by
        have := List.mem_filter.mp hd0
        exact ⟨d0, this.1, by simpa using this.2⟩
      have hallnil : ∀ g ∈ t, perFile n g = [] := by
        intro g hg
        rw [perFile, List.filter_eq_nil_iff]
        intro d2 hdg
        simp only [decide_eq_true_eq]
        intro he
        exact (hf g hg n hdef) ⟨d2, hdg, he⟩
      have hnil2 : (t.map (perFile n)).filter (fun l => !l.isEmpty) = [] := by
        rw [List.filter_eq_nil_iff]
        intro l hl
        rcases List.mem_map.mp hl with ⟨g, hg, rfl⟩
        simp [hallnil g hg]
      simp [List.map_cons, List.filter_cons, hd, hnil2]

/-- Under pairwise-disjoint defined names, the symbol table's lookup
function does not depend on the order files are processed in. -/
theorem buildTable_get_perm {files1 files2 : List SrcFile}
    (hp : files1.Perm files2) (hdis : files1.Pairwise DisjointNames)
    (n : String) :
    mapGet (buildTable files1) n = mapGet (buildTable files2) n := by
  rw [buildTable_get, buildTable_get, filter_allDefs_eq_join,
    filter_allDefs_eq_join]
  rw [join_eq_of_perm_subsingleton (hp.map (perFile n))
    (count_defining_le_one hdis n)]

theorem fileTriples_congr {t1 t2 : List (String × FunctionDef)}
    (h : ∀ n, mapGet t1 n = mapGet t2 n) (f : SrcFile) :
    fileTriples t1 f = fileTriples t2 f := by
  unfold fileTriples
  congr 1
  funext oc
  rw [h oc.2]

theorem addCall_functions_ne_nil {m : List (List Char × Edge)}
    (hm : ∀ p ∈ m, p.2.functions ≠ []) (fr toMod fn : String) :
    ∀ p ∈ addCall m fr toMod fn, p.2.functions ≠ [] := by
  intro p hp
  cases hget : mapGet m (edgeKey fr toMod) with
  | some e =>
    rw [addCall_of_get_some hget] at hp
    rcases mem_mapSet hp with h2 | h2
    · subst h2
      dsimp only
      split
      · exact hm _ (mem_of_mapGet_eq_some hget)
      · simp
    · exact hm p h2
  | none =>
    rw [addCall_of_get_none hget] at hp
    rcases mem_mapSet hp with h2 | h2
    · subst h2; simp
    · exact hm p h2

theorem buildEdges_functions_ne_nil (table : List (String × FunctionDef))
    (files : List SrcFile) :
    ∀ p ∈ buildEdges table files, p.2.functions ≠ [] := by
  rw [buildEdges_eq]
  refine foldl_preserve (P := fun m => ∀ p ∈ m, p.2.functions ≠ [])
    addTriple ?_ (allTriples table files) [] (by simp)
  intro m t hm
  exact addCall_functions_ne_nil hm t.1 t.2.1 t.2.2

/-- A module pair is present among the edges exactly when some function is
observable on it (stored edges never have an empty label list). -/
theorem edge_present_iff_some_fn (files : List SrcFile) (fr toMod : String) :
    (∃ e ∈ (pipeline files).edges, e.fromModule = fr ∧ e.toModule = toMod) ↔
      ∃ fn, EdgeSem (pipeline files) fr toMod fn := by
  constructor
  · rintro ⟨e, he, h1, h2⟩
    have he2 : e ∈ mapValues (buildEdges (buildTable files) files) := he
    rcases List.mem_map.mp he2 with ⟨p, hp, hpe⟩
    have hne : e.functions ≠ [] := by
      rw [← hpe]
      exact buildEdges_functions_ne_nil _ _ p hp
    obtain ⟨fn, hfn⟩ := List.exists_mem_of_ne_nil _ hne
    exact ⟨fn, e, he, h1, h2, hfn⟩
  · rintro ⟨fn, e, he, h1, h2, _⟩
    exact ⟨e, he, h1, h2⟩

/-- C6 is corrected: on duplicate definitions the final edge set depends on
file order.  With `a.c`, `b.c` both `int f(){}` and `c.c` calling `f`, the
order `[a, b, c]` yields the edge `c -> b` while the permuted order
`[b, a, c]` does not (`f` then resolves to `a`). -/
theorem c6_order_dependence_counterexample :
    ([("a", "int f()\x7b\x7d".data), ("b", "int f()\x7b\x7d".data),
        ("c", "int main()\x7b f(); \x7d".data)] : List SrcFile).Perm
      [("b", "int f()\x7b\x7d".data), ("a", "int f()\x7b\x7d".data),
        ("c", "int main()\x7b f(); \x7d".data)] ∧
    EdgeSem (pipeline [("a", "int f()\x7b\x7d".data),
      ("b", "int f()\x7b\x7d".data),
      ("c", "int main()\x7b f(); \x7d".data)]) "c" "b" "f" ∧
    ¬ EdgeSem (pipeline [("b", "int f()\x7b\x7d".data),
      ("a", "int f()\x7b\x7d".data),
      ("c", "int main()\x7b f(); \x7d".data)]) "c" "b" "f" := by
  refine ⟨List.Perm.swap _ _ _, ?_, ?_⟩
  · decide
  · decide

/-- C6 as amended: when no two distinct files define the same function
name (and module names avoid the `>` character, so edge keys cannot
collide), the observable edge set — module pairs and the function names on
each edge — is invariant under permutation of the file processing order. -/
theorem c6_permutation_invariance (files1 files2 : List SrcFile)
    (hp : files1.Perm files2)
    (hdis : files1.Pairwise DisjointNames)
    (hgt : ∀ f ∈ files1, ('>' : Char) ∉ f.1.data) :
    (∀ fr toMod fn, EdgeSem (pipeline files1) fr toMod fn ↔
      EdgeSem (pipeline files2) fr toMod fn) ∧
    (∀ fr toMod,
      (∃ e ∈ (pipeline files1).edges, e.fromModule = fr ∧ e.toModule = toMod) ↔
      (∃ e ∈ (pipeline files2).edges, e.fromModule = fr ∧ e.toModule = toMod)) := by
  have hgt2 : ∀ f ∈ files2, ('>' : Char) ∉ f.1.data := fun f hf =>
    hgt f (hp.mem_iff.mpr hf)
  have htab : ∀ n, mapGet (buildTable files1) n = mapGet (buildTable files2) n :=
    buildTable_get_perm hp hdis
  have htabfun : fileTriples (buildTable files1) =
      fileTriples (buildTable files2) := funext (fileTriples_congr htab)
  have htr : allTriples (buildTable files2) files2 =
      files2.flatMap (fileTriples (buildTable files1)) := by
    unfold allTriples
    rw [htabfun]
  have hperm : (allTriples (buildTable files1) files1).Perm
      (allTriples (buildTable files2) files2) := by
    rw [htr]
    exact hp.flatMap_right _
  have hsem : ∀ fr toMod fn, EdgeSem (pipeline files1) fr toMod fn ↔
      EdgeSem (pipeline files2) fr toMod fn := by
    intro fr toMod fn
    rw [edgeSem_iff files1 (keyInj_allTriples hgt) fr toMod fn,
      edgeSem_iff files2 (keyInj_allTriples hgt2) fr toMod fn]
    exact hperm.mem_iff
  refine ⟨hsem, ?_⟩
  intro fr toMod
  rw [edge_present_iff_some_fn, edge_present_iff_some_fn]
  exact exists_congr (fun fn => hsem fr toMod fn)

/-- Witness for C6 as amended: the C1 example files in both orders have the
same observable edges. -/
theorem c6_permutation_invariance_witness :
    (∀ fr toMod fn,
      EdgeSem (pipeline [("a", "int main()\x7b bar(); \x7d".data),
        ("b", "void bar()\x7b\x7d".data)]) fr toMod fn ↔
      EdgeSem (pipeline [("b", "void bar()\x7b\x7d".data),
        ("a", "int main()\x7b bar(); \x7d".data)]) fr toMod fn) ∧
    (∀ fr toMod,
      (∃ e ∈ (pipeline [("a", "int main()\x7b bar(); \x7d".data),
        ("b", "void bar()\x7b\x7d".data)]).edges,
        e.fromModule = fr ∧ e.toModule = toMod) ↔
      (∃ e ∈ (pipeline [("b", "void bar()\x7b\x7d".data),
        ("a", "int main()\x7b bar(); \x7d".data)]).edges,
        e.fromModule = fr ∧ e.toModule = toMod)) := by
  refine c6_permutation_invariance _ _
    (List.Perm.swap _ _ _) ?_ (by decide)
  refine List.Pairwise.cons ?_ (List.pairwise_singleton _ _)
  intro g hg
  simp only [List.mem_singleton] at hg
  subst hg
  rintro n ⟨d, hd, hdn⟩ ⟨d2, hd2, hdn2⟩
  have h1 : fileDefs "a" "int main()\x7b bar(); \x7d".data =
      [⟨"main", "a", 0⟩] := by decide
  have h2 : fileDefs "b" "void bar()\x7b\x7d".data = [⟨"bar", "b", 0⟩] := by
    decide
  rw [h1] at hd
  rw [h2] at hd2
  simp only [List.mem_singleton] at hd hd2
  subst hd
  subst hd2
  rw [← hdn2] at hdn
  exact absurd hdn (by decide)

/-! Embedding of `walkFiles` (src/extension.ts, lines 143-153) over a model
file tree.  `fs.readdirSync` on an unreadable directory throws `EACCES`;
`walkFiles` has no try/catch, so the exception propagates — modelled with
`Except`.  Collected entries are identified by their names (the `path.join`
prefixing is presentation glue). -/

/-- `path.extname`: the suffix from the final `.` of the base name, empty
when there is no dot or only a leading dot. -/
def extname (name : String) : String :=
  let cs := name.data
  let revAfter := cs.reverse.takeWhile (fun c => c ≠ '.')
  if revAfter.length = cs.length then ""
  else if cs.length - 1 - revAfter.length = 0 then ""
  else String.mk ('.' :: revAfter.reverse)

inductive FsEntry where
  | file (name : String)
  | dir (name : String) (readable : Bool) (entries : List FsEntry)

/-- The `list.forEach` body of `walkFiles` over the entries returned by
`readdirSync`: recurse into directories (throwing `EACCES` as soon as an
unreadable one is read), collect files with an accepted extension. -/
def walkList (exts : List String) : List FsEntry → Except String (List String)
  | [] => .ok []
  | .file n :: rest => do
    let rs ← walkList exts rest
    .ok (if (extname n) ∈ exts then n :: rs else rs)
  | .dir _ false _ :: _ => .error "EACCES: permission denied"
  | .dir _ true es :: rest => do
    let sub ← walkList exts es
    let rs ← walkList exts rest
    .ok (sub ++ rs)

def walkFiles (d : FsEntry) (exts : List String) : Except String (List String) :=
  match d with
  | .file _ => .error "ENOTDIR: not a directory"
  | .dir _ false _ => .error "EACCES: permission denied"
  | .dir _ true es => walkList exts es

theorem walkList_append (exts : List String) (l1 l2 : List FsEntry) :
    walkList exts (l1 ++ l2) = (do
      let r1 ← walkList exts l1
      let r2 ← walkList exts l2
      pure (r1 ++ r2)) := by
  induction l1 with
  | nil =>
    simp only [List.nil_append, walkList]
    cases walkList exts l2 <;> rfl
  | cons e t ih =>
    cases e with
    | file n =>
      simp only [List.cons_append, walkList, ih]
      cases walkList exts t <;> cases walkList exts l2 <;>
        first
        | rfl
        | (split <;> rfl)
    | dir d rb es2 =>
      cases rb with
      | false =>
        simp only [List.cons_append, walkList]
        rfl
      | true =>
        simp only [List.cons_append, walkList, ih]
        cases walkList exts es2 <;> cases walkList exts t <;>
          cases walkList exts l2 <;>
          first
          | rfl
          | exact congrArg Except.ok (List.append_assoc _ _ _).symm

/-- C8 is corrected: an unreadable directory among the entries makes the
walk throw (the claim says it is skipped with a warning).  Concretely the
run aborts with `EACCES` even though readable files surround the bad
directory. -/
theorem c8_unreadable_dir_counterexample :
    walkFiles (.dir "root" true
        [.file "a.c", .dir "sub" false [], .file "b.c"]) [".c"] =
      .error "EACCES: permission denied" := by
  simp only [walkFiles, walkList, extname]
  rfl

/-- C8 as amended: when the File Collector reaches an unreadable directory
(after any prefix of entries that walks fine), `readdirSync` throws and the
error propagates out of `walkFiles` — the directory is not skipped, no
warning is reported, and the run aborts. -/
theorem c8_unreadable_dir_aborts (exts : List String) (nm dn : String)
    (pre post es : List FsEntry) (l : List String)
    (h : walkList exts pre = .ok l) :
    walkFiles (.dir nm true (pre ++ .dir dn false es :: post)) exts =
      .error "EACCES: permission denied" := by
  show walkList exts (pre ++ FsEntry.dir dn false es :: post) = _
  rw [walkList_append, h]
  simp only [walkList]
  rfl

/-- Witness for C8 as amended at a concrete tree. -/
theorem c8_unreadable_dir_aborts_witness :
    walkFiles (.dir "top" true
        ([.file "m.c"] ++ FsEntry.dir "locked" false [.file "h.c"] ::
          [.file "n.c"])) [".c"] = .error "EACCES: permission denied" :=
  c8_unreadable_dir_aborts [".c"] "top" "locked" [.file "m.c"]
    [.file "n.c"] [.file "h.c"] ["m.c"]
    (by simp only [walkList, extname]; rfl)

end MCG
